import Mathlib

/-!
Shallow embedding of `src/main.rs` of the `rs_translation_check` repository:
a translation-catalog consistency checker. Catalogs are association lists
from language code to a flat `KeySpace` (dot-path key to string value),
mirroring the `DashMap<String, HashMap<String, String>>` of the source.
Fallible operations (the `.unwrap()` calls of the source, which panic)
are modelled with `Option`: `none` is a panic/abort.
-/

/-- A flat key space: dot-path key to leaf string value
(Rust `HashMap<String, String>`). Keys of a `HashMap` are unique. -/
abbrev KeySpace := List (String × String)

/-- A catalog: language code to `KeySpace`
(Rust `DashMap<String, HashMap<String, String>>`). Language codes of a
`DashMap` are unique (`Nodup` hypotheses state this where needed). -/
abbrev Catalog := List (String × KeySpace)

/-- Association-list lookup, the embedding of `HashMap::get` / `DashMap::get`. -/
def alookup {β : Type} (k : String) : List (String × β) → Option β
  | [] => none
  | p :: rest => if p.1 = k then some p.2 else alookup k rest

/-- The key set of a map, as a list (Rust `HashMap::keys`). -/
def keyList {β : Type} (m : List (String × β)) : List String := m.map Prod.fst

/-- A word character of the regex class `\w` (letters, digits, underscore);
the source compiles the pattern over these (`src/main.rs` line 18). -/
def isWordChar (c : Char) : Bool := c.isAlphanum || c = '_'

/-- The captured identifiers of all matches of the pattern `\{(\w+)}`
(`src/main.rs` lines 17-19), in position order. A position matches when it
holds a literal opening brace, the greedy `\w+` takes a non-empty maximal
run of word characters, and a closing brace follows. Scanning every
position one by one yields exactly the regex engine's non-overlapping
leftmost matches: the interior of a match (its word characters and its
closing brace) contains no opening brace, so no second match can start
inside a region the engine has already consumed. -/
def extractVarsAux : List Char → List String
  | [] => []
  | c :: rest =>
    (if c = '{' ∧ (rest.dropWhile isWordChar).head? = some '}' ∧
        rest.takeWhile isWordChar ≠ [] then
      [String.mk (rest.takeWhile isWordChar)]
    else []) ++ extractVarsAux rest

/-- Embedding of `extract_variables` (`src/main.rs` lines 22-27): collect the
captured identifiers of all non-overlapping matches of `\{(\w+)}` into a set
(Rust `HashSet<String>`, modelled as `Finset String`). -/
def extract_variables (text : String) : Finset String :=
  (extractVarsAux text.data).toFinset

/-- Embedding of `get_translation_file` (`src/main.rs` lines 29-38): resolve
the originating file of `(lang, key)` through the file mapping, falling back
to the sentinel when either lookup fails. -/
def get_translation_file (file_mapping : Catalog) (lang key : String) : String :=
  ((alookup lang file_mapping).bind (fun fm => alookup key fm)).getD ("Unknown file")

/-- Embedding of serde_json `Value`: the JSON value tree flattened by the
source. -/
inductive Json where
  | str (s : String)
  | num (n : Int)
  | boolVal (b : Bool)
  | nullVal
  | arr (elems : List Json)
  | obj (fields : List (String × Json))

/-- The accumulated path of a child: child key appended to the running
path with a dot, or the bare child key when the running path is empty
(`src/main.rs` lines 47-51). -/
def join_key (pre k : String) : String := if pre = "" then k else pre ++ "." ++ k

mutual

/-- Embedding of `flatten_json` (`src/main.rs` lines 40-61): the list of
(dot-path, string-leaf) pairs the stack traversal inserts into the output
map. The source's explicit stack visits the children of an object in
reverse order; that permutation only affects which of two colliding paths
is inserted last, and is irrelevant to every statement below. -/
def flatten_json : Json → String → List (String × String)
  | Json.str s, pre => [(pre, s)]
  | Json.obj fields, pre => flatten_fields fields pre
  | Json.num _, _ => []
  | Json.boolVal _, _ => []
  | Json.nullVal, _ => []
  | Json.arr _, _ => []

/-- The loop of `src/main.rs` lines 46-53 over the entries of one object. -/
def flatten_fields : List (String × Json) → String → List (String × String)
  | [], _ => []
  | (k, v) :: rest, pre => flatten_json v (join_key pre k) ++ flatten_fields rest pre

end

mutual

/-- Whether a JSON value contains a string leaf anywhere under object
nesting (the only positions `flatten_json` ever reads). -/
def hasStringLeaf : Json → Bool
  | Json.str _ => true
  | Json.obj fields => hasStringLeafFields fields
  | Json.num _ => false
  | Json.boolVal _ => false
  | Json.nullVal => false
  | Json.arr _ => false

/-- Whether any entry of an object carries a string leaf. -/
def hasStringLeafFields : List (String × Json) → Bool
  | [] => false
  | (_, v) :: rest => hasStringLeaf v || hasStringLeafFields rest

end

/-- Prefix test on character lists (needle, then haystack). -/
def beginsWith : List Char → List Char → Bool
  | [], _ => true
  | _ :: _, [] => false
  | p :: ps, q :: qs => decide (p = q) && beginsWith ps qs

/-- Literal substring occurrence (needle, then haystack): the embedding of
Rust `str::contains` with a string needle. -/
def occursIn : List Char → List Char → Bool
  | pat, [] => beginsWith pat []
  | pat, c :: t => beginsWith pat (c :: t) || occursIn pat t

/-- Embedding of `extract_keys_from_content` (`src/main.rs` lines 63-71):
the base keys occurring as a literal substring of the file content. -/
def extract_keys_from_content (content : String) (base_keys : Finset String) :
    Finset String :=
  base_keys.filter (fun k => occursIn k.data content.data = true)

/-- Embedding of `process_files` (`src/main.rs` lines 91-105) over the
already-read contents of the scanned files: the union of the used-key sets
of every file. -/
def process_files (contents : List String) (base_keys : Finset String) :
    Finset String :=
  contents.foldr (fun c acc => extract_keys_from_content c base_keys ∪ acc) ∅

/-- Embedding of `check_translations_usage` (`src/main.rs` lines 107-113):
the unused keys are the base keys minus the used keys. -/
def check_translations_usage (base_keys : Finset String) (contents : List String) :
    Finset String :=
  base_keys \ process_files contents base_keys

/-- One finding of the diff: each constructor is one of the report lines the
source prints, carrying the resolved file provenance. -/
inductive Finding where
  | missingKey (key file : String)
  | extraKey (key file : String)
  | variableMismatch (key : String) (expected found : Finset String)
      (baseFile otherFile : String)
  | unusedKeyStillTranslated (key file : String)
deriving DecidableEq

/-- The diff outcome for one non-base language: its findings in the order
the source reports them, and the `local_errors` flag of
`src/main.rs` lines 137-204. -/
structure LangResult where
  lang : String
  findings : List Finding
  local_errors : Bool
deriving DecidableEq

/-- The aggregate outcome of `check_translations`: per-language results and
the overall `has_errors` flag (the atomic boolean of `src/main.rs` line 123). -/
structure Report where
  results : List LangResult
  has_errors : Bool
deriving DecidableEq

/-- Lookup of a key's value for a language across the whole catalog:
`translations.get(lang).unwrap().get(key).unwrap()` of `src/main.rs`
lines 159-160, with `none` for either panic. -/
def lookup_value (env : Catalog) (lang key : String) : Option String :=
  (alookup lang env).bind (fun m => alookup key m)

/-- The `missing_keys` of `src/main.rs` line 134: base keys absent from the
other language. -/
def missing_of (base_keys : List String) (m : KeySpace) : List String :=
  base_keys.filter (fun k => decide (k ∉ keyList m))

/-- The `extra_keys` of `src/main.rs` line 135: other-language keys absent
from the base. -/
def extra_of (base_keys : List String) (m : KeySpace) : List String :=
  (keyList m).filter (fun k => decide (k ∉ base_keys))

/-- The intersection iterated by `src/main.rs` line 157. -/
def inter_of (base_keys : List String) (m : KeySpace) : List String :=
  base_keys.filter (fun k => decide (k ∈ keyList m))

/-- For each key of the intersection, fetch the base-language value and the
other-language value (`src/main.rs` lines 158-160); a failed `.unwrap()`
aborts the whole run, hence `none`. -/
def collect_pairs (env : Catalog) (base_lang lang : String) :
    List String → Option (List (String × String × String))
  | [] => some []
  | k :: rest =>
    match lookup_value env base_lang k, lookup_value env lang k with
    | some bv, some ov =>
        (collect_pairs env base_lang lang rest).map (fun ts => (k, bv, ov) :: ts)
    | _, _ => none

/-- The missing-key findings block (`src/main.rs` lines 139-146). -/
def missing_findings (fm : Catalog) (lang : String) (ks : List String) :
    List Finding :=
  ks.map (fun k => Finding.missingKey k (get_translation_file fm lang k))

/-- The extra-key findings block (`src/main.rs` lines 148-155). -/
def extra_findings (fm : Catalog) (lang : String) (ks : List String) :
    List Finding :=
  ks.map (fun k => Finding.extraKey k (get_translation_file fm lang k))

/-- The variable-mismatch findings block (`src/main.rs` lines 157-188): a
finding for exactly the intersection keys whose two extracted placeholder
sets differ, carrying both sets and both resolved files. -/
def mismatch_findings (fm : Catalog) (base_lang lang : String)
    (ts : List (String × String × String)) : List Finding :=
  (ts.filter (fun t => decide (extract_variables t.2.1 ≠ extract_variables t.2.2))).map
    (fun t => Finding.variableMismatch t.1
      (extract_variables t.2.1) (extract_variables t.2.2)
      (get_translation_file fm base_lang t.1) (get_translation_file fm lang t.1))

/-- The unused-key findings block (`src/main.rs` lines 190-199): one finding
per unused key the language still defines. -/
def unused_findings (fm : Catalog) (unused_keys : List String) (lang : String)
    (m : KeySpace) : List Finding :=
  (unused_keys.filter (fun k => decide (k ∈ keyList m))).map
    (fun k => Finding.unusedKeyStillTranslated k (get_translation_file fm lang k))

/-- The body of the per-language closure of `src/main.rs` lines 127-205:
diff one non-base language `lang` (key map `m`) against the base key set,
producing the findings in report order and the `local_errors` flag. -/
def check_lang (base_lang : String) (env fm : Catalog)
    (base_keys unused_keys : List String) (lang : String) (m : KeySpace) :
    Option (List Finding × Bool) :=
  (collect_pairs env base_lang lang (inter_of base_keys m)).map (fun ts =>
    (missing_findings fm lang (missing_of base_keys m) ++
       extra_findings fm lang (extra_of base_keys m) ++
       mismatch_findings fm base_lang lang ts ++
       unused_findings fm unused_keys lang m,
     !(missing_of base_keys m).isEmpty || !(extra_of base_keys m).isEmpty ||
       !(mismatch_findings fm base_lang lang ts).isEmpty ||
       !(unused_findings fm unused_keys lang m).isEmpty))

/-- The iteration of `src/main.rs` line 127: visit every catalog entry,
skip the base language, diff the rest. -/
def check_all (base_lang : String) (env fm : Catalog)
    (base_keys unused_keys : List String) : Catalog → Option (List LangResult)
  | [] => some []
  | (lang, m) :: rest =>
    if lang = base_lang then check_all base_lang env fm base_keys unused_keys rest
    else
      match check_lang base_lang env fm base_keys unused_keys lang m with
      | none => none
      | some res =>
          (check_all base_lang env fm base_keys unused_keys rest).map
            (fun rs => ⟨lang, res.1, res.2⟩ :: rs)

/-- Embedding of `check_translations` (`src/main.rs` lines 115-208). The
base key set is taken from the hard-coded language code `"fr"`
(`src/main.rs` line 121), not from the `base_lang` parameter; the
`.unwrap()` there is the fatal missing-base-language abort. `has_errors`
is the OR of the per-language flags (the atomic store of line 203). -/
def check_translations (base_lang : String) (translations fm : Catalog)
    (unused_keys : List String) : Option Report :=
  match alookup ("fr") translations with
  | none => none
  | some base_map =>
    match check_all base_lang translations fm (keyList base_map) unused_keys
        translations with
    | none => none
    | some rs => some ⟨rs, rs.any (fun lr => lr.local_errors)⟩

/-- The exit-code mapping of `src/main.rs` line 277. -/
def exit_code (has_errors : Bool) : Nat := if has_errors then 1 else 0

/-- Embedding of the engine part of `main` (`src/main.rs` lines 258-277):
`check_translations` is invoked with base language `"fr"` and an EMPTY
unused-key set (line 262); only afterwards are the unused keys computed
from the scanned source contents, and the exit code is taken from the
report's `has_errors` alone. -/
def run_main (translations fm : Catalog) (source_contents : List String) :
    Option (Report × Finset String × Nat) :=
  match check_translations ("fr") translations fm [] with
  | none => none
  | some report =>
    match alookup ("fr") translations with
    | none => none
    | some base_map =>
      some (report,
        check_translations_usage (keyList base_map).toFinset source_contents,
        exit_code report.has_errors)

/-- Two key spaces are identical as maps (the hypothesis side of the
identical-catalog property): same key set and the same value under every
lookup. -/
def sameKeySpace (m bm : KeySpace) : Prop :=
  (keyList m).toFinset = (keyList bm).toFinset ∧ ∀ k, alookup k m = alookup k bm

/-- Concrete catalog where the intended base language "de" has a key "b"
that "fr" lacks. -/
def c1_env : Catalog := [("fr", [("a", "x")]), ("de", [("a", "x"), ("b", "y")])]

/-- Concrete catalog with a base value "Hi {name}" and a translation
"Hola {nom}" under the same key. -/
def c6_env : Catalog :=
  [("fr", [("greet", "Hi \x7bname\x7d")]), ("es", [("greet", "Hola \x7bnom\x7d")])]

/-- Concrete catalog in which both languages define the key "a", which no
source file uses. -/
def c9_env : Catalog := [("fr", [("a", "x")]), ("de", [("a", "x")])]

/-! Helper lemmas about the scanning primitives. -/

/-- A prefix test succeeds exactly when the haystack extends the needle. -/
theorem beginsWith_iff (p : List Char) : ∀ l : List Char,
    beginsWith p l = true ↔ ∃ t, l = p ++ t := by
  induction p with
  | nil =>
    intro l
    simp [beginsWith]
  | cons c cs ih =>
    intro l
    cases l with
    | nil =>
      simp [beginsWith]
    | cons d ds =>
      simp only [beginsWith, Bool.and_eq_true, decide_eq_true_eq, ih ds]
      constructor
      · rintro ⟨hcd, t, ht⟩
        exact ⟨t, by simp [hcd, ht]⟩
      · rintro ⟨t, ht⟩
        rw [List.cons_append] at ht
        cases ht
        exact ⟨rfl, t, rfl⟩

/-- Substring occurrence is exactly the existence of a split around the
needle. -/
theorem occursIn_iff (p : List Char) : ∀ l : List Char,
    occursIn p l = true ↔ ∃ s t, l = s ++ p ++ t := by
  intro l
  induction l with
  | nil =>
    simp only [occursIn, beginsWith_iff]
    constructor
    · rintro ⟨t, ht⟩
      exact ⟨[], t, by simpa using ht⟩
    · rintro ⟨s, t, ht⟩
      refine ⟨t, ?_⟩
      rcases List.append_eq_nil.mp (ht.symm) with ⟨h1, h2⟩
      rcases List.append_eq_nil.mp h1 with ⟨h3, h4⟩
      simp [h4, h2]
  | cons c rest ih =>
    simp only [occursIn, Bool.or_eq_true, beginsWith_iff, ih]
    constructor
    · rintro (⟨t, ht⟩ | ⟨s, t, ht⟩)
      · exact ⟨[], t, by simp [ht]⟩
      · exact ⟨c :: s, t, by simp [ht]⟩
    · rintro ⟨s, t, ht⟩
      cases s with
      | nil =>
        exact Or.inl ⟨t, by simpa using ht⟩
      | cons a as =>
        rw [List.cons_append, List.cons_append] at ht
        cases ht
        exact Or.inr ⟨as, t, rfl⟩

/-- The closing brace is not a word character. -/
theorem rbrace_not_word : isWordChar '}' = false := by decide

/-- Splitting a run of word characters followed by a closing brace. -/
theorem takeWhile_word_append (w t : List Char)
    (hw : ∀ c ∈ w, isWordChar c = true) :
    (w ++ '}' :: t).takeWhile isWordChar = w ∧
      (w ++ '}' :: t).dropWhile isWordChar = '}' :: t := by
  induction w with
  | nil =>
    simp [List.takeWhile, List.dropWhile, rbrace_not_word]
  | cons c cs ih =>
    have hc : isWordChar c = true := hw c (by simp)
    have ihs := ih (fun d hd => hw d (by simp [hd]))
    simp [List.takeWhile_cons, List.dropWhile_cons, hc, ihs.1, ihs.2]

/-- Membership characterization of the raw scanner: a string is produced
exactly when it is a non-empty run of word characters and occurs in the
text wrapped in braces. -/
theorem mem_extractVarsAux (v : String) : ∀ l : List Char,
    v ∈ extractVarsAux l ↔
      (v.data ≠ [] ∧ (∀ c ∈ v.data, isWordChar c = true) ∧
        occursIn ('{' :: v.data ++ ['}']) l = true) := by
  intro l
  induction l with
  | nil =>
    simp only [extractVarsAux, List.not_mem_nil, false_iff, not_and]
    intro hne hw
    simp only [occursIn, beginsWith_iff]
    rintro ⟨t, ht⟩
    simp at ht
  | cons c rest ih =>
    simp only [extractVarsAux, List.mem_append, ih]
    constructor
    · rintro (hhead | ⟨hne, hw, hocc⟩)
      · by_cases hP : c = '{' ∧ (rest.dropWhile isWordChar).head? = some '}' ∧
            rest.takeWhile isWordChar ≠ []
        · rw [if_pos hP] at hhead
          simp only [List.mem_singleton] at hhead
          obtain ⟨hc, hd, hne⟩ := hP
          subst hhead
          refine ⟨hne, fun ch hch => List.mem_takeWhile_imp hch, ?_⟩
          obtain ⟨d, tl, hdw⟩ : ∃ d tl, rest.dropWhile isWordChar = d :: tl := by
            cases hdws : rest.dropWhile isWordChar with
            | nil => rw [hdws] at hd; simp at hd
            | cons d tl => exact ⟨d, tl, rfl⟩
          have hdd : d = '}' := by rw [hdw] at hd; simpa using hd
          have hrest : rest = rest.takeWhile isWordChar ++ '}' :: tl := by
            conv_lhs => rw [← List.takeWhile_append_dropWhile isWordChar rest]
            rw [hdw, hdd]
          rw [occursIn_iff]
          refine ⟨[], tl, ?_⟩
          rw [hc]
          conv_lhs => rw [hrest]
          simp
        · rw [if_neg hP] at hhead
          simp at hhead
      · refine ⟨hne, hw, ?_⟩
        show (beginsWith ('{' :: v.data ++ ['}']) (c :: rest) ||
          occursIn ('{' :: v.data ++ ['}']) rest) = true
        rw [hocc, Bool.or_true]
    · rintro ⟨hne, hw, hocc⟩
      have hocc2 : (beginsWith ('{' :: v.data ++ ['}']) (c :: rest) ||
          occursIn ('{' :: v.data ++ ['}']) rest) = true := hocc
      rcases Bool.or_eq_true_iff.mp hocc2 with hpre | htail
      · left
        rw [beginsWith_iff] at hpre
        obtain ⟨t, ht⟩ := hpre
        have ht2 : c :: rest = '{' :: (v.data ++ '}' :: t) := by
          rw [ht]
          simp
        injection ht2 with hc hrest
        subst hc
        subst hrest
        have hsplit := takeWhile_word_append v.data t hw
        have hP : ('{' : Char) = '{' ∧
            ((v.data ++ '}' :: t).dropWhile isWordChar).head? = some '}' ∧
            (v.data ++ '}' :: t).takeWhile isWordChar ≠ [] := by
          refine ⟨rfl, ?_, ?_⟩
          · rw [hsplit.2]; rfl
          · rw [hsplit.1]; exact hne
        rw [if_pos hP]
        simp only [List.mem_singleton]
        rw [hsplit.1]
      · right
        exact ⟨hne, hw, htail⟩

/-- C5: for every input string, placeholder extraction returns exactly the
set of distinct identifiers captured by the non-overlapping matches of the
pattern "opening brace, one or more word characters, closing brace": a
string `v` is in the result exactly when it is a non-empty run of word
characters whose braced form occurs in the text (so duplicates collapse
and the result is a set, hence order-insensitive); a text with no such
occurrence yields the empty set, and unmatched or malformed braces
(`"{a"`, `"a}"`, `"{}"`) produce no match and no error. -/
theorem c5_placeholder_extraction :
    (∀ text v : String, v ∈ extract_variables text ↔
      (v.data ≠ [] ∧ (∀ c ∈ v.data, isWordChar c = true) ∧
        occursIn ('{' :: v.data ++ ['}']) text.data = true)) ∧
    extract_variables ("\x7ba\x7d\x7ba\x7d") = {"a"} ∧
    extract_variables ("Hello \x7bname\x7d, you have \x7bcount\x7d items") =
      {"name", "count"} ∧
    extract_variables ("no placeholders") = ∅ ∧
    extract_variables ("\x7ba") = ∅ ∧
    extract_variables ("a\x7d") = ∅ ∧
    extract_variables ("\x7b\x7d") = ∅ := by
  refine ⟨fun text v => ?_, by decide, by decide, by decide, by decide, by decide, by decide⟩
  rw [extract_variables, List.mem_toFinset]
  exact mem_extractVarsAux v text.data

/-! Lemmas about the tree flattener. -/

/-- The object case of the flattener is the concatenation of the flattened
children, each under its dot-joined path. -/
theorem flatten_fields_eq_flatMap (fields : List (String × Json)) (pre : String) :
    flatten_fields fields pre =
      fields.flatMap (fun kv => flatten_json kv.2 (join_key pre kv.1)) := by
  induction fields with
  | nil => rfl
  | cons kv rest ih =>
    obtain ⟨k, v⟩ := kv
    rw [List.flatMap_cons]
    show flatten_json v (join_key pre k) ++ flatten_fields rest pre = _
    rw [ih]

mutual

/-- A value with no string leaf flattens to nothing. -/
theorem flatten_json_eq_nil_of_no_leaf : ∀ (v : Json) (pre : String),
    hasStringLeaf v = false → flatten_json v pre = []
  | Json.str _, _, h => by simp [hasStringLeaf] at h
  | Json.obj fields, pre, h =>
    flatten_fields_eq_nil_of_no_leaf fields pre h
  | Json.num _, _, _ => rfl
  | Json.boolVal _, _, _ => rfl
  | Json.nullVal, _, _ => rfl
  | Json.arr _, _, _ => rfl

/-- An object whose entries carry no string leaf flattens to nothing. -/
theorem flatten_fields_eq_nil_of_no_leaf : ∀ (fields : List (String × Json))
    (pre : String), hasStringLeafFields fields = false → flatten_fields fields pre = []
  | [], _, _ => rfl
  | (k, v) :: rest, pre, h => by
    have h2 : hasStringLeaf v = false ∧ hasStringLeafFields rest = false :=
      Bool.or_eq_false_iff.mp h
    show flatten_json v (join_key pre k) ++ flatten_fields rest pre = []
    rw [flatten_json_eq_nil_of_no_leaf v (join_key pre k) h2.1,
      flatten_fields_eq_nil_of_no_leaf rest pre h2.2]
    rfl

end

/-- C7: flattening a string leaf inserts it under the accumulated path; an
object flattens to its children, each under the dot-joined path (bare
child key on an empty running path); numbers, booleans, null and arrays
are silently skipped (the function is total, so no error is raised); a
value without string leaves yields an empty KeySpace; and a single string
leaf at path a.b.c produces exactly the one entry "a.b.c". -/
theorem c7_flatten_json :
    (∀ s pre, flatten_json (Json.str s) pre = [(pre, s)]) ∧
    (∀ fields pre, flatten_json (Json.obj fields) pre =
      fields.flatMap (fun kv => flatten_json kv.2 (join_key pre kv.1))) ∧
    (∀ pre k, join_key "" k = k ∧ (pre ≠ "" → join_key pre k = pre ++ "." ++ k)) ∧
    (∀ pre n, flatten_json (Json.num n) pre = []) ∧
    (∀ pre b, flatten_json (Json.boolVal b) pre = []) ∧
    (∀ pre, flatten_json Json.nullVal pre = []) ∧
    (∀ pre elems, flatten_json (Json.arr elems) pre = []) ∧
    (∀ v pre, hasStringLeaf v = false → flatten_json v pre = []) ∧
    (∀ s, flatten_json
        (Json.obj [("a", Json.obj [("b", Json.obj [("c", Json.str s)])])]) "" =
      [("a.b.c", s)]) := by
  refine ⟨fun s pre => rfl, fun fields pre => flatten_fields_eq_flatMap fields pre,
    fun pre k => ⟨by simp [join_key], fun h => by simp [join_key, h]⟩,
    fun pre n => rfl, fun pre b => rfl, fun pre => rfl, fun pre elems => rfl,
    fun v pre h => flatten_json_eq_nil_of_no_leaf v pre h,
    fun s => rfl⟩

/-- Witness for C7 at concrete inputs: an array is skipped even when a
string sits inside it, and a non-empty running path is dot-joined. -/
theorem c7_flatten_json_witness :
    flatten_json (Json.arr [Json.str ("x")]) "" = [] ∧
    join_key ("a") ("b") = "a" ++ "." ++ "b" :=
  ⟨c7_flatten_json.2.2.2.2.2.2.2.1 (Json.arr [Json.str ("x")]) "" rfl,
    (c7_flatten_json.2.2.1 ("a") ("b")).2 (by decide)⟩

/-- C10: a bare top-level string flattens, with the empty running path, to
exactly one entry whose key is the empty string and whose value is the
string itself; it is neither skipped nor an error. -/
theorem c10_flatten_top_level_string (s : String) :
    flatten_json (Json.str s) "" = [("", s)] := rfl

/-! Lemmas about the usage scanner. -/

/-- A key is collected by the file scan exactly when it is a base key and
occurs as a substring of at least one file's content. -/
theorem mem_process_files (contents : List String) (base_keys : Finset String)
    (k : String) :
    k ∈ process_files contents base_keys ↔
      k ∈ base_keys ∧ ∃ c ∈ contents, occursIn k.data c.data = true := by
  induction contents with
  | nil => simp [process_files]
  | cons c cs ih =>
    show k ∈ extract_keys_from_content c base_keys ∪
        process_files cs base_keys ↔ _
    rw [Finset.mem_union, ih, extract_keys_from_content, Finset.mem_filter]
    constructor
    · rintro (⟨hb, ho⟩ | ⟨hb, d, hd, ho⟩)
      · exact ⟨hb, c, by simp, ho⟩
      · exact ⟨hb, d, by simp [hd], ho⟩
    · rintro ⟨hb, d, hd, ho⟩
      rcases List.mem_cons.mp hd with rfl | hd
      · exact Or.inl ⟨hb, ho⟩
      · exact Or.inr ⟨hb, d, hd, ho⟩

/-- C8: the usage scanner reports as unused exactly the base keys that
occur as a literal substring of no file's content; a key occurring in at
least one content (even inside an unrelated longer token) is excluded,
and the result is the base key set minus the used keys. -/
theorem c8_unused_keys (base_keys : Finset String) (contents : List String)
    (k : String) :
    (k ∈ check_translations_usage base_keys contents ↔
      k ∈ base_keys ∧ ∀ c ∈ contents, occursIn k.data c.data = false) ∧
    check_translations_usage base_keys contents =
      base_keys \ process_files contents base_keys := by
  refine ⟨?_, rfl⟩
  rw [check_translations_usage, Finset.mem_sdiff, mem_process_files]
  constructor
  · rintro ⟨hb, hnot⟩
    refine ⟨hb, fun c hc => ?_⟩
    rcases hcc : occursIn k.data c.data with _ | _
    · rfl
    · exact absurd ⟨hb, c, hc, hcc⟩ hnot
  · rintro ⟨hb, hall⟩
    refine ⟨hb, ?_⟩
    rintro ⟨-, c, hc, ho⟩
    rw [hall c hc] at ho
    cases ho

/-! Helper lemmas about the differ. -/

/-- In a map with no duplicate keys (a `DashMap`), lookup of an entry's key
returns that entry's value. -/
theorem alookup_eq_some_of_mem {β : Type} (env : List (String × β)) (lang : String)
    (m : β) (hnd : (env.map Prod.fst).Nodup) (hmem : (lang, m) ∈ env) :
    alookup lang env = some m := by
  induction env with
  | nil => cases hmem
  | cons p rest ih =>
    rcases List.mem_cons.mp hmem with heq | hmem2
    · rw [← heq, alookup, if_pos rfl]
    · have hne : p.1 ≠ lang := by
        intro hcontra
        have : lang ∈ rest.map Prod.fst :=
          List.mem_map.mpr ⟨(lang, m), hmem2, rfl⟩
        rw [List.map_cons, List.nodup_cons, hcontra] at hnd
        exact hnd.1 this
      rw [alookup, if_neg hne]
      exact ih (by rw [List.map_cons, List.nodup_cons] at hnd; exact hnd.2) hmem2

/-- Lookup of a key that is in the key list succeeds. -/
theorem alookup_isSome_of_mem_keyList {β : Type} (m : List (String × β))
    (k : String) (h : k ∈ keyList m) : ∃ v, alookup k m = some v := by
  induction m with
  | nil => cases h
  | cons p rest ih =>
    by_cases hp : p.1 = k
    · exact ⟨p.2, by rw [alookup, if_pos hp]⟩
    · have h2 : k ∈ keyList rest := by
        rcases List.mem_cons.mp h with heq | h2
        · exact absurd heq.symm hp
        · exact h2
      obtain ⟨v, hv⟩ := ih h2
      exact ⟨v, by rw [alookup, if_neg hp]; exact hv⟩

/-- Membership in the intersection of line 157. -/
theorem mem_inter_of (bks : List String) (m : KeySpace) (k : String) :
    k ∈ inter_of bks m ↔ k ∈ bks ∧ k ∈ keyList m := by
  simp [inter_of]

/-- Membership in the missing-key list of line 134. -/
theorem mem_missing_of (bks : List String) (m : KeySpace) (k : String) :
    k ∈ missing_of bks m ↔ k ∈ bks ∧ k ∉ keyList m := by
  simp [missing_of]

/-- Membership in the extra-key list of line 135. -/
theorem mem_extra_of (bks : List String) (m : KeySpace) (k : String) :
    k ∈ extra_of bks m ↔ k ∈ keyList m ∧ k ∉ bks := by
  simp [extra_of]

/-- When both per-key lookups succeed on every key, the intersection pass
completes. -/
theorem collect_pairs_eq_some (env : Catalog) (bl lang : String) :
    ∀ ks : List String,
      (∀ k ∈ ks, (lookup_value env bl k).isSome ∧ (lookup_value env lang k).isSome) →
      ∃ ts, collect_pairs env bl lang ks = some ts := by
  intro ks
  induction ks with
  | nil => exact fun _ => ⟨[], rfl⟩
  | cons k rest ih =>
    intro h
    obtain ⟨hb, ho⟩ := h k (by simp)
    obtain ⟨bv, hbv⟩ := Option.isSome_iff_exists.mp hb
    obtain ⟨ov, hov⟩ := Option.isSome_iff_exists.mp ho
    obtain ⟨ts, hts⟩ := ih (fun q hq => h q (by simp [hq]))
    exact ⟨(k, bv, ov) :: ts, by rw [collect_pairs, hbv, hov, hts]; rfl⟩

/-- The triples produced by the intersection pass are exactly the keys of
the list with their two looked-up values. -/
theorem mem_collect_pairs (env : Catalog) (bl lang : String) :
    ∀ (ks : List String) (ts : List (String × String × String)),
      collect_pairs env bl lang ks = some ts →
      ∀ k bv ov, ((k, bv, ov) ∈ ts ↔
        k ∈ ks ∧ lookup_value env bl k = some bv ∧ lookup_value env lang k = some ov) := by
  intro ks
  induction ks with
  | nil =>
    intro ts h k bv ov
    injection h with h2
    subst h2
    simp
  | cons k0 rest ih =>
    intro ts h k bv ov
    rw [collect_pairs] at h
    cases hb : lookup_value env bl k0 with
    | none => rw [hb] at h; cases hob : lookup_value env lang k0 <;> rw [hob] at h <;> cases h
    | some bv0 =>
      rw [hb] at h
      cases ho : lookup_value env lang k0 with
      | none => rw [ho] at h; cases h
      | some ov0 =>
        rw [ho] at h
        cases hrest : collect_pairs env bl lang rest with
        | none => rw [hrest] at h; cases h
        | some ts0 =>
          rw [hrest] at h
          have hts : (k0, bv0, ov0) :: ts0 = ts := Option.some.inj h
          subst hts
          rw [List.mem_cons]
          constructor
          · rintro (heq | hmem)
            · injection heq with h1 h2
              injection h2 with h2 h3
              subst h1
              subst h2
              subst h3
              exact ⟨by simp, hb, ho⟩
            · obtain ⟨hk, hbv, hov⟩ := (ih ts0 hrest k bv ov).mp hmem
              exact ⟨by simp [hk], hbv, hov⟩
          · rintro ⟨hk, hbv, hov⟩
            rcases List.mem_cons.mp hk with rfl | hk2
            · rw [hb] at hbv
              rw [ho] at hov
              injection hbv with hbv
              injection hov with hov
              rw [← hbv, ← hov]
              exact Or.inl rfl
            · exact Or.inr ((ih ts0 hrest k bv ov).mpr ⟨hk2, hbv, hov⟩)

/-- Destructuring a successful per-language diff into its four blocks. -/
theorem check_lang_some_elim (bl : String) (env fm : Catalog) (bks u : List String)
    (lang : String) (m : KeySpace) (res : List Finding × Bool)
    (h : check_lang bl env fm bks u lang m = some res) :
    ∃ ts, collect_pairs env bl lang (inter_of bks m) = some ts ∧
      res.1 = missing_findings fm lang (missing_of bks m) ++
        extra_findings fm lang (extra_of bks m) ++
        mismatch_findings fm bl lang ts ++ unused_findings fm u lang m ∧
      res.2 = (!(missing_of bks m).isEmpty || !(extra_of bks m).isEmpty ||
        !(mismatch_findings fm bl lang ts).isEmpty ||
        !(unused_findings fm u lang m).isEmpty) := by
  rw [check_lang] at h
  cases hc : collect_pairs env bl lang (inter_of bks m) with
  | none => rw [hc] at h; cases h
  | some ts =>
    rw [hc] at h
    have h2 := Option.some.inj h
    exact ⟨ts, rfl, by rw [← h2], by rw [← h2]⟩

/-- The per-language error flag of lines 137-204 is set exactly when the
language's finding list is non-empty. -/
theorem check_lang_flag (bl : String) (env fm : Catalog) (bks u : List String)
    (lang : String) (m : KeySpace) (res : List Finding × Bool)
    (h : check_lang bl env fm bks u lang m = some res) :
    res.2 = !res.1.isEmpty := by
  obtain ⟨ts, _, h1, h2⟩ := check_lang_some_elim bl env fm bks u lang m res h
  rw [h1, h2, missing_findings, extra_findings]
  rcases missing_of bks m with _ | ⟨x, xs⟩ <;>
    rcases extra_of bks m with _ | ⟨y, ys⟩ <;>
    rcases mismatch_findings fm bl lang ts with _ | ⟨z, zs⟩ <;>
    rcases unused_findings fm u lang m with _ | ⟨w, ws⟩ <;> simp

/-- Membership of a variable-mismatch finding in the mismatch block. -/
theorem mem_mismatch_findings (fm : Catalog) (bl lang : String)
    (ts : List (String × String × String)) (k : String) (e f : Finset String)
    (bf ofl : String) :
    Finding.variableMismatch k e f bf ofl ∈ mismatch_findings fm bl lang ts ↔
      ∃ bv ov, (k, bv, ov) ∈ ts ∧ extract_variables bv ≠ extract_variables ov ∧
        e = extract_variables bv ∧ f = extract_variables ov ∧
        bf = get_translation_file fm bl k ∧ ofl = get_translation_file fm lang k := by
  rw [mismatch_findings]
  simp only [List.mem_map, List.mem_filter, decide_eq_true_eq]
  constructor
  · rintro ⟨t, ⟨hmem, hne⟩, heq⟩
    simp only [Finding.variableMismatch.injEq] at heq
    obtain ⟨hk, he, hf, hbf, hofl⟩ := heq
    subst hk
    exact ⟨t.2.1, t.2.2, hmem, hne, he.symm, hf.symm, hbf.symm, hofl.symm⟩
  · rintro ⟨bv, ov, hmem, hne, he, hf, hbf, hofl⟩
    exact ⟨(k, bv, ov), ⟨hmem, hne⟩, by rw [he, hf, hbf, hofl]⟩

/-- Every element of the missing-key block is a missing-key finding. -/
theorem mem_missing_findings_shape (fm : Catalog) (lang : String) (ks : List String)
    (fnd : Finding) (h : fnd ∈ missing_findings fm lang ks) :
    ∃ k file, fnd = Finding.missingKey k file := by
  rw [missing_findings] at h
  obtain ⟨k, _, hk⟩ := List.mem_map.mp h
  exact ⟨k, get_translation_file fm lang k, hk.symm⟩

/-- Every element of the extra-key block is an extra-key finding. -/
theorem mem_extra_findings_shape (fm : Catalog) (lang : String) (ks : List String)
    (fnd : Finding) (h : fnd ∈ extra_findings fm lang ks) :
    ∃ k file, fnd = Finding.extraKey k file := by
  rw [extra_findings] at h
  obtain ⟨k, _, hk⟩ := List.mem_map.mp h
  exact ⟨k, get_translation_file fm lang k, hk.symm⟩

/-- Every element of the unused-key block is an unused-key finding. -/
theorem mem_unused_findings_shape (fm : Catalog) (u : List String) (lang : String)
    (m : KeySpace) (fnd : Finding) (h : fnd ∈ unused_findings fm u lang m) :
    ∃ k file, fnd = Finding.unusedKeyStillTranslated k file := by
  rw [unused_findings] at h
  obtain ⟨k, _, hk⟩ := List.mem_map.mp h
  exact ⟨k, get_translation_file fm lang k, hk.symm⟩

/-- When every non-base language's diff succeeds, the whole pass over the
catalog succeeds. -/
theorem check_all_eq_some (bl : String) (env fm : Catalog) (bks u : List String) :
    ∀ it : Catalog,
      (∀ p ∈ it, p.1 ≠ bl → (check_lang bl env fm bks u p.1 p.2).isSome) →
      ∃ rs, check_all bl env fm bks u it = some rs := by
  intro it
  induction it with
  | nil => exact fun _ => ⟨[], rfl⟩
  | cons p rest ih =>
    intro h
    obtain ⟨lang, m⟩ := p
    obtain ⟨rs, hrs⟩ := ih (fun q hq hqne => h q (by simp [hq]) hqne)
    by_cases hl : lang = bl
    · exact ⟨rs, by rw [check_all, if_pos hl]; exact hrs⟩
    · have hs := h (lang, m) (by simp) hl
      obtain ⟨res, hres⟩ := Option.isSome_iff_exists.mp hs
      refine ⟨⟨lang, res.1, res.2⟩ :: rs, ?_⟩
      rw [check_all, if_neg hl, hres, hrs]
      rfl

/-- Every produced language result comes from a catalog entry of a
non-base language whose diff succeeded. -/
theorem check_all_results (bl : String) (env fm : Catalog) (bks u : List String) :
    ∀ (it : Catalog) (rs : List LangResult),
      check_all bl env fm bks u it = some rs →
      ∀ lr ∈ rs, ∃ p ∈ it, p.1 ≠ bl ∧ lr.lang = p.1 ∧
        check_lang bl env fm bks u p.1 p.2 = some (lr.findings, lr.local_errors) := by
  intro it
  induction it with
  | nil =>
    intro rs h lr hlr
    injection h with h2
    subst h2
    cases hlr
  | cons p rest ih =>
    intro rs h lr hlr
    obtain ⟨lang, m⟩ := p
    rw [check_all] at h
    by_cases hl : lang = bl
    · rw [if_pos hl] at h
      obtain ⟨q, hq, hqne, hql, hqcl⟩ := ih rs h lr hlr
      exact ⟨q, by simp [hq], hqne, hql, hqcl⟩
    · rw [if_neg hl] at h
      cases hcl : check_lang bl env fm bks u lang m with
      | none => rw [hcl] at h; cases h
      | some res =>
        rw [hcl] at h
        cases hrest : check_all bl env fm bks u rest with
        | none => rw [hrest] at h; cases h
        | some rs0 =>
          rw [hrest] at h
          have h2 : (⟨lang, res.1, res.2⟩ : LangResult) :: rs0 = rs :=
            Option.some.inj h
          rw [← h2] at hlr
          rcases List.mem_cons.mp hlr with rfl | hlr2
          · exact ⟨(lang, m), by simp, hl, rfl, hcl⟩
          · obtain ⟨q, hq, hqne, hql, hqcl⟩ := ih rs0 hrest lr hlr2
            exact ⟨q, by simp [hq], hqne, hql, hqcl⟩

/-- Congruence for `List.any`. -/
theorem list_any_congr {α : Type} (l : List α) (f g : α → Bool)
    (h : ∀ x ∈ l, f x = g x) : l.any f = l.any g := by
  induction l with
  | nil => rfl
  | cons x xs ih =>
    rw [List.any_cons, List.any_cons, h x (by simp),
      ih (fun q hq => h q (by simp [hq]))]

/-- Destructuring a successful whole-catalog diff. -/
theorem check_translations_some_elim (bl : String) (translations fm : Catalog)
    (u : List String) (r : Report)
    (h : check_translations bl translations fm u = some r) :
    ∃ bm rs, alookup ("fr") translations = some bm ∧
      check_all bl translations fm (keyList bm) u translations = some rs ∧
      r = ⟨rs, rs.any (fun lr => lr.local_errors)⟩ := by
  rw [check_translations] at h
  cases hbm : alookup ("fr") translations with
  | none => rw [hbm] at h; cases h
  | some bm =>
    rw [hbm] at h
    have h2 : (match check_all bl translations fm (keyList bm) u translations with
      | none => none
      | some rs => some (⟨rs, rs.any (fun lr => lr.local_errors)⟩ : Report)) =
        some r := h
    cases hrs : check_all bl translations fm (keyList bm) u translations with
    | none => rw [hrs] at h2; cases h2
    | some rs =>
      rw [hrs] at h2
      exact ⟨bm, rs, rfl, hrs, (Option.some.inj h2).symm⟩

/-- C2: invoked as in `main` with base language `"fr"`, the differ aborts
with the fatal missing-base-language condition (the `unwrap` of line 121,
modelled as `none`) whenever the base language is absent from the catalog,
before any per-language diff output is produced; and whenever the base
language is present, no later step can fail, so the engine produces a
complete report. -/
theorem c2_fatal_missing_base (translations fm : Catalog) (u : List String)
    (hnd : (translations.map Prod.fst).Nodup) :
    (alookup ("fr") translations = none →
      check_translations ("fr") translations fm u = none) ∧
    (∀ bm, alookup ("fr") translations = some bm →
      (check_translations ("fr") translations fm u).isSome) := by
  constructor
  · intro h
    rw [check_translations, h]
  · intro bm hbm
    have hall : ∀ p ∈ translations, p.1 ≠ ("fr") →
        (check_lang ("fr") translations fm (keyList bm) u p.1 p.2).isSome := by
      rintro ⟨lang, m⟩ hp _
      have hc : ∃ ts, collect_pairs translations ("fr") lang
          (inter_of (keyList bm) m) = some ts := by
        apply collect_pairs_eq_some
        intro k hk
        obtain ⟨hkb, hkm⟩ := (mem_inter_of (keyList bm) m k).mp hk
        constructor
        · obtain ⟨v, hv⟩ := alookup_isSome_of_mem_keyList bm k hkb
          rw [lookup_value, hbm]
          simp [hv]
        · obtain ⟨v, hv⟩ := alookup_isSome_of_mem_keyList m k hkm
          rw [lookup_value, alookup_eq_some_of_mem translations lang m hnd hp]
          simp [hv]
      obtain ⟨ts, hts⟩ := hc
      rw [check_lang, hts]
      rfl
    obtain ⟨rs, hrs⟩ :=
      check_all_eq_some ("fr") translations fm (keyList bm) u translations hall
    simp [check_translations, hbm, hrs]

/-- Witness for C2: a catalog without `"fr"` aborts; one with `"fr"`
produces a report. -/
theorem c2_fatal_missing_base_witness :
    check_translations ("fr") [("de", [("a", "x")])] [] [] = none ∧
    (check_translations ("fr") [("fr", [("a", "x")]), ("de", [])] [] []).isSome :=
  ⟨(c2_fatal_missing_base [("de", [("a", "x")])] [] [] (by decide)).1 (by decide),
    (c2_fatal_missing_base [("fr", [("a", "x")]), ("de", [])] [] []
      (by decide)).2 [("a", "x")] (by decide)⟩

/-- C3: for every successful run, the overall `has_errors` is the OR of
the per-language error flags, a language's flag being set exactly when its
finding list is non-empty; and the process exit code is 0 exactly when
`has_errors` is false and non-zero exactly when it is true. -/
theorem c3_has_errors_is_or_of_flags (bl : String) (translations fm : Catalog)
    (u : List String) (r : Report)
    (h : check_translations bl translations fm u = some r) :
    r.has_errors = r.results.any (fun lr => !lr.findings.isEmpty) ∧
    (r.has_errors = false → exit_code r.has_errors = 0) ∧
    (r.has_errors = true → exit_code r.has_errors ≠ 0) := by
  obtain ⟨bm, rs, hbm, hrs, hr⟩ := check_translations_some_elim bl translations fm u r h
  refine ⟨?_, ?_, ?_⟩
  · rw [hr]
    apply list_any_congr
    intro lr hlr
    obtain ⟨p, _, _, _, hcl⟩ :=
      check_all_results bl translations fm (keyList bm) u translations rs hrs lr hlr
    have := check_lang_flag bl translations fm (keyList bm) u p.1 p.2
      (lr.findings, lr.local_errors) hcl
    exact this
  · intro hfalse
    rw [hfalse]
    rfl
  · intro htrue
    rw [htrue]
    exact fun hcontra => by cases hcontra

/-- Witness for C3 at a concrete catalog with one missing key. -/
theorem c3_has_errors_witness :
    (⟨[⟨"de", [Finding.missingKey ("a") ("Unknown file")], true⟩], true⟩ : Report).has_errors =
      (⟨[⟨"de", [Finding.missingKey ("a") ("Unknown file")], true⟩], true⟩ : Report).results.any
        (fun lr => !lr.findings.isEmpty) ∧
    exit_code true ≠ 0 :=
  ⟨(c3_has_errors_is_or_of_flags ("fr") [("fr", [("a", "x")]), ("de", [])] [] []
      ⟨[⟨"de", [Finding.missingKey ("a") ("Unknown file")], true⟩], true⟩ (by decide)).1,
    (c3_has_errors_is_or_of_flags ("fr") [("fr", [("a", "x")]), ("de", [])] [] []
      ⟨[⟨"de", [Finding.missingKey ("a") ("Unknown file")], true⟩], true⟩ (by decide)).2.2 rfl⟩

/-- Under identical key spaces, the per-language diff succeeds and reduces
to the unused-key block alone: no missing, extra or mismatch finding. -/
theorem check_lang_identical (env fm : Catalog) (bm : KeySpace) (u : List String)
    (lang : String) (m : KeySpace)
    (hnd : (env.map Prod.fst).Nodup)
    (hfr : alookup ("fr") env = some bm)
    (hmem : (lang, m) ∈ env)
    (hsame : sameKeySpace m bm) :
    check_lang ("fr") env fm (keyList bm) u lang m =
      some (unused_findings fm u lang m, !(unused_findings fm u lang m).isEmpty) := by
  have hkeys : ∀ k, k ∈ keyList m ↔ k ∈ keyList bm := by
    intro k
    rw [← List.mem_toFinset, ← List.mem_toFinset, hsame.1]
  have hmiss : missing_of (keyList bm) m = [] := by
    rw [missing_of, List.filter_eq_nil_iff]
    intro k hk
    simp [(hkeys k).mpr hk]
  have hextra : extra_of (keyList bm) m = [] := by
    rw [extra_of, List.filter_eq_nil_iff]
    intro k hk
    simp [(hkeys k).mp hk]
  have hlv : ∀ k, lookup_value env ("fr") k = alookup k bm ∧
      lookup_value env lang k = alookup k m := by
    intro k
    constructor
    · rw [lookup_value, hfr]; rfl
    · rw [lookup_value, alookup_eq_some_of_mem env lang m hnd hmem]; rfl
  obtain ⟨ts, hts⟩ : ∃ ts,
      collect_pairs env ("fr") lang (inter_of (keyList bm) m) = some ts := by
    apply collect_pairs_eq_some
    intro k hk
    obtain ⟨hkb, hkm⟩ := (mem_inter_of (keyList bm) m k).mp hk
    obtain ⟨h1, h2⟩ := hlv k
    obtain ⟨v, hv⟩ := alookup_isSome_of_mem_keyList bm k hkb
    obtain ⟨w, hw⟩ := alookup_isSome_of_mem_keyList m k hkm
    rw [h1, h2, hv, hw]
    exact ⟨rfl, rfl⟩
  have hmf : mismatch_findings fm ("fr") lang ts = [] := by
    rw [mismatch_findings]
    have hfilter : ts.filter
        (fun t => decide (extract_variables t.2.1 ≠ extract_variables t.2.2)) = [] := by
      rw [List.filter_eq_nil_iff]
      intro t ht
      obtain ⟨hk, hbv, hov⟩ := (mem_collect_pairs env ("fr") lang
        (inter_of (keyList bm) m) ts hts t.1 t.2.1 t.2.2).mp ht
      obtain ⟨h1, h2⟩ := hlv t.1
      rw [h1] at hbv
      rw [h2, hsame.2 t.1, hbv] at hov
      injection hov with hov
      simp [hov]
    rw [hfilter]
    rfl
  simp [check_lang, hts, hmiss, hextra, hmf, missing_findings, extra_findings]

/-- C4: when a non-base language's KeySpace is identical (same keys, same
values) to the base one, its diff yields no missing-key, extra-key or
variable-mismatch finding; and when every non-base language is identical
to the base, the run (as `main` invokes it, with an empty unused set)
reports no finding at all and `has_errors` is false. -/
theorem c4_identical_keyspaces (env fm : Catalog) (bm : KeySpace)
    (hnd : (env.map Prod.fst).Nodup)
    (hfr : alookup ("fr") env = some bm) :
    (∀ lang m u res, (lang, m) ∈ env → sameKeySpace m bm →
      check_lang ("fr") env fm (keyList bm) u lang m = some res →
      ∀ fnd ∈ res.1, (∀ k file, fnd ≠ Finding.missingKey k file) ∧
        (∀ k file, fnd ≠ Finding.extraKey k file) ∧
        (∀ k e f bf ofl, fnd ≠ Finding.variableMismatch k e f bf ofl)) ∧
    ((∀ p ∈ env, p.1 ≠ ("fr") → sameKeySpace p.2 bm) →
      ∃ r, check_translations ("fr") env fm [] = some r ∧ r.has_errors = false ∧
        ∀ lr ∈ r.results, lr.findings = []) := by
  constructor
  · intro lang m u res hmem hsame hres fnd hfnd
    rw [check_lang_identical env fm bm u lang m hnd hfr hmem hsame] at hres
    have hres2 := Option.some.inj hres
    rw [← hres2] at hfnd
    obtain ⟨k, file, hk⟩ := mem_unused_findings_shape fm u lang m fnd hfnd
    subst hk
    exact ⟨fun k2 f2 h => by simp at h, fun k2 f2 h => by simp at h,
      fun k2 e f bf ofl h => by simp at h⟩
  · intro hall
    have hck : ∀ p ∈ env, p.1 ≠ ("fr") →
        check_lang ("fr") env fm (keyList bm) [] p.1 p.2 =
          some (unused_findings fm [] p.1 p.2,
            !(unused_findings fm [] p.1 p.2).isEmpty) := by
      intro p hp hne
      exact check_lang_identical env fm bm [] p.1 p.2 hnd hfr hp (hall p hp hne)
    have hunil : ∀ lang m, unused_findings fm [] lang m = [] := fun lang m => rfl
    obtain ⟨rs, hrs⟩ := check_all_eq_some ("fr") env fm (keyList bm) [] env
      (fun p hp hne => by rw [hck p hp hne]; rfl)
    have hlr : ∀ lr ∈ rs, lr.findings = [] ∧ lr.local_errors = false := by
      intro lr hlr
      obtain ⟨p, hp, hne, _, hqcl⟩ :=
        check_all_results ("fr") env fm (keyList bm) [] env rs hrs lr hlr
      rw [hck p hp hne, hunil p.1 p.2] at hqcl
      have h2 := Option.some.inj hqcl
      exact ⟨(congrArg Prod.fst h2).symm, (congrArg Prod.snd h2).symm⟩
    refine ⟨⟨rs, rs.any (fun lr => lr.local_errors)⟩, ?_, ?_, ?_⟩
    · simp [check_translations, hfr, hrs]
    · show rs.any (fun lr => lr.local_errors) = false
      rw [List.any_eq_false]
      intro lr hlr2
      rw [(hlr lr hlr2).2]
      simp
    · intro lr hlr2
      exact (hlr lr hlr2).1

/-- Witness for C4: two identical single-key catalogs diff cleanly. -/
theorem c4_identical_keyspaces_witness :
    ∃ r, check_translations ("fr") [("fr", [("a", "x")]), ("de", [("a", "x")])]
        [] [] = some r ∧ r.has_errors = false ∧ ∀ lr ∈ r.results, lr.findings = [] :=
  (c4_identical_keyspaces [("fr", [("a", "x")]), ("de", [("a", "x")])] []
      [("a", "x")] (by decide) (by decide)).2
    (by
      intro p hp hne
      have h2 : p.2 = [("a", "x")] := by
        rcases List.mem_cons.mp hp with heq | hp2
        · rw [heq]
        · rcases List.mem_cons.mp hp2 with heq2 | hp3
          · rw [heq2]
          · exact absurd hp3 (List.not_mem_nil p)
      rw [h2]
      exact ⟨rfl, fun k => rfl⟩)

/-- C6: in a successful per-language diff, a variable-mismatch finding for
key `k` with expected set `e`, found set `f` and files `bf`, `ofl` is
emitted exactly when `k` lies in the intersection of the base and other
key sets and the placeholder sets extracted from the two looked-up values
are `e` and `f` with `e ≠ f` (exact set inequality, so order-independent
and case-sensitive), the files being resolved through the file index; and
the resolution falls back to the sentinel whenever no path is recorded. -/
theorem c6_variable_mismatch_iff (bl lang : String) (env fm : Catalog)
    (bks u : List String) (m : KeySpace) (res : List Finding × Bool)
    (h : check_lang bl env fm bks u lang m = some res)
    (k : String) (e f : Finset String) (bf ofl : String) :
    (Finding.variableMismatch k e f bf ofl ∈ res.1 ↔
      k ∈ bks ∧ k ∈ keyList m ∧
      ∃ bv ov, lookup_value env bl k = some bv ∧ lookup_value env lang k = some ov ∧
        e = extract_variables bv ∧ f = extract_variables ov ∧ e ≠ f ∧
        bf = get_translation_file fm bl k ∧ ofl = get_translation_file fm lang k) ∧
    (∀ fmx lx kx, (alookup lx fmx).bind (fun mm => alookup kx mm) = none →
      get_translation_file fmx lx kx = ("Unknown file")) := by
  obtain ⟨ts, hts, h1, _⟩ := check_lang_some_elim bl env fm bks u lang m res h
  constructor
  · rw [h1]
    simp only [List.mem_append]
    constructor
    · rintro (((hmiss | hextra) | hmm) | hun)
      · obtain ⟨k2, f2, hk⟩ := mem_missing_findings_shape fm lang _ _ hmiss
        simp at hk
      · obtain ⟨k2, f2, hk⟩ := mem_extra_findings_shape fm lang _ _ hextra
        simp at hk
      · obtain ⟨bv, ov, hmem, hne, he, hf, hbf, hofl⟩ :=
          (mem_mismatch_findings fm bl lang ts k e f bf ofl).mp hmm
        obtain ⟨hk, hbv, hov⟩ :=
          (mem_collect_pairs env bl lang _ ts hts k bv ov).mp hmem
        obtain ⟨hkb, hkm⟩ := (mem_inter_of bks m k).mp hk
        refine ⟨hkb, hkm, bv, ov, hbv, hov, he, hf, ?_, hbf, hofl⟩
        rw [he, hf]
        exact hne
      · obtain ⟨k2, f2, hk⟩ := mem_unused_findings_shape fm u lang m _ hun
        simp at hk
    · rintro ⟨hkb, hkm, bv, ov, hbv, hov, he, hf, hef, hbf, hofl⟩
      refine Or.inl (Or.inr ?_)
      apply (mem_mismatch_findings fm bl lang ts k e f bf ofl).mpr
      refine ⟨bv, ov, ?_, ?_, he, hf, hbf, hofl⟩
      · exact (mem_collect_pairs env bl lang _ ts hts k bv ov).mpr
          ⟨(mem_inter_of bks m k).mpr ⟨hkb, hkm⟩, hbv, hov⟩
      · rw [← he, ← hf]
        exact hef
  · intro fmx lx kx hx
    rw [get_translation_file, hx]
    rfl

/-- Witness for C6: the sets extracted from "Hi {name}" and "Hola {nom}"
differ, so the key is reported with both sets and the sentinel files. -/
theorem c6_variable_mismatch_witness :
    ∃ res, check_lang ("fr") c6_env [] ["greet"] [] ("es")
        [("greet", "Hola \x7bnom\x7d")] = some res ∧
      Finding.variableMismatch ("greet") {"name"} {"nom"} ("Unknown file")
        ("Unknown file") ∈ res.1 := by
  refine ⟨([Finding.variableMismatch ("greet") {"name"} {"nom"} ("Unknown file")
    ("Unknown file")], true), by decide, ?_⟩
  apply ((c6_variable_mismatch_iff ("fr") ("es") c6_env [] ["greet"] []
    [("greet", "Hola \x7bnom\x7d")]
    ([Finding.variableMismatch ("greet") {"name"} {"nom"} ("Unknown file")
      ("Unknown file")], true) (by decide) ("greet") {"name"} {"nom"}
    ("Unknown file") ("Unknown file")).1).mpr
  exact ⟨by decide, by decide, "Hi \x7bname\x7d", "Hola \x7bnom\x7d", by decide,
    by decide, by decide, by decide, by decide, by decide, by decide⟩

/-- C1 (divergence witness): `check_translations` takes the base language
as a parameter but reads the base key set from the hard-coded language
`"fr"` (`src/main.rs` line 121). With intended base language "de", whose
key space has the extra key "b", the diff of the non-base language "fr"
reports nothing at all — in particular no missing-key finding for "b" —
because the reference key set is silently taken from "fr" itself. -/
theorem c1_hardcoded_base_lang :
    check_translations ("de") c1_env [] [] =
      some ⟨[⟨"fr", [], false⟩], false⟩ ∧
    alookup ("de") c1_env = some [("a", "x"), ("b", "y")] ∧
    ("b") ∈ keyList [("a", "x"), ("b", "y")] ∧
    alookup ("fr") c1_env = some [("a", "x")] ∧
    ("b") ∉ keyList [("a", "x")] := by decide

/-- C9 (divergence witness): `main` calls `check_translations` with an
empty unused-key set (`src/main.rs` line 262) and computes the unused keys
only afterwards, so a translation of an unused key is never reported and
never reaches `has_errors` or the exit code: here key "a" is unused (no
source content mentions it) and "de" still defines it, yet the run exits 0
with no finding. Had `main` passed the unused set, the engine would have
emitted the finding, as the second conjunct shows. -/
theorem c9_unused_keys_not_surfaced :
    run_main c9_env [] ["nothing here"] =
      some (⟨[⟨"de", [], false⟩], false⟩, {"a"}, 0) ∧
    check_translations ("fr") c9_env [] ["a"] =
      some ⟨[⟨"de", [Finding.unusedKeyStillTranslated ("a") ("Unknown file")],
        true⟩], true⟩ := by decide
